import Mathlib

/-!
Shallow embedding of the per-column storage layer (`ColumnData` and its
collaborators) from `src/src/planner/operator/logical_get.cpp`.

Conventions of the embedding:
* `idx_t` / `row_t` become `Nat`; row values become `Int`.
* Functions that throw (`InternalException`, `TransactionException`, ...)
  return `Except StorageError`.
* `D_ASSERT` is a debug-build assertion that raises an internal error in
  debug builds; where a claim depends on it we model it as an internal error.
* Collaborators whose code is not under `src/` (the segment tree structure,
  `ColumnSegment` encode/append, `UpdateSegment`, the checkpointer) are
  modelled from the spec; each such definition says so in its doc comment.
-/

namespace ColumnStore

/-- Error taxonomy of the storage core (spec section 7): internal-consistency
errors (`InternalException`), transaction-conflict errors
(`TransactionException`) and serialization errors. -/
inductive StorageError where
  | internal : String → StorageError
  | transaction : String → StorageError
  | serialization : String → StorageError
deriving DecidableEq

/-- Whether an `Except` result is a success. -/
def exceptOk : Except StorageError α → Bool
  | .ok _ => true
  | .error _ => false

/-- Whether an `Except` result is an internal-consistency error. -/
def isInternalError : Except StorageError α → Bool
  | .error (.internal _) => true
  | _ => false

/-- Whether an `Except` result is a transaction-conflict error. -/
def isTransactionError : Except StorageError α → Bool
  | .error (.transaction _) => true
  | _ => false

/-- Modelled from the spec: `BaseStatistics` is the per-column zone-map
aggregate (min/max over the values; null/distinct counts are not needed by
any claim). The statistics internals are an external collaborator; only
`Merge` and `CreateEmpty` are used by the code under `src/`. -/
structure BaseStatistics where
  minVal : Option Int
  maxVal : Option Int
deriving DecidableEq

/-- Modelled from the spec: an empty statistics accumulator
(`BaseStatistics::CreateEmpty`). -/
def BaseStatistics.CreateEmpty : BaseStatistics := { minVal := none, maxVal := none }

/-- Combine two optional bounds with a binary operation. -/
def optCombine (f : Int → Int → Int) : Option Int → Option Int → Option Int
  | none, b => b
  | a, none => a
  | some a, some b => some (f a b)

/-- Modelled from the spec: `BaseStatistics::Merge` widens the zone map by the
other side's bounds. -/
def BaseStatistics.Merge (a b : BaseStatistics) : BaseStatistics :=
  { minVal := optCombine min a.minVal b.minVal, maxVal := optCombine max a.maxVal b.maxVal }

/-- Modelled from the spec: the statistics of a run of values. -/
def statsOfValues (vs : List Int) : BaseStatistics :=
  vs.foldl (fun s v => s.Merge { minVal := some v, maxVal := some v }) BaseStatistics.CreateEmpty

/-- Embeds `ColumnSegmentType`: a segment is persistent (sealed, block-backed) or
transient (in-memory, appendable until full). -/
inductive ColumnSegmentType where
  | persistent
  | transient
deriving DecidableEq

/-- One column segment: a contiguously-addressed run of rows.
`values` is the decoded content (the encode/decode collaborator of spec
section 6 guarantees decode yields exactly `count` rows); `capacity` is the
row capacity of the segment's buffer; `appendable` models
`function.get().init_append` being present (the encoding supports appends). -/
structure Segment where
  start : Nat
  count : Nat
  capacity : Nat
  segmentType : ColumnSegmentType
  appendable : Bool
  values : List Int
  stats : BaseStatistics
deriving DecidableEq

/-- Modelled from the spec: `ColumnSegment::CreateTransientSegment` — a fresh
empty in-memory segment at `startRow` with row capacity `cap`. -/
def Segment.transientSeg (startRow cap : Nat) : Segment :=
  { start := startRow, count := 0, capacity := cap, segmentType := .transient,
    appendable := true, values := [], stats := BaseStatistics.CreateEmpty }

/-- Modelled from the spec: `ColumnSegment::Append(state, vdata, offset, count)`
copies as many of the requested rows as the segment can absorb (bounded by its
remaining capacity), updates the segment's own statistics, and reports how many
rows it copied. -/
def segAppendInto (seg : Segment) (vdata : List Int) (offset n : Nat) : Segment × Nat :=
  let copied := min (seg.capacity - seg.count) n
  let slice := (vdata.drop offset).take copied
  ({ seg with
      count := seg.count + copied
      values := seg.values ++ slice
      stats := seg.stats.Merge (statsOfValues slice) }, copied)

/-- Modelled from the spec: `ColumnSegment::RevertAppend(startRow)` discards
the rows of the segment at or after `startRow` in place. -/
def Segment.RevertAppendSeg (seg : Segment) (startRow : Nat) : Segment :=
  { seg with count := startRow - seg.start, values := seg.values.take (startRow - seg.start) }

/-- Modelled from the spec: one row-level override recorded by the update
overlay. `row` is the row offset inside the 1024-row vector block, `txn` the
writing transaction, `committed` whether the entry has a committed id. -/
structure UpdateEntry where
  row : Nat
  txn : Nat
  committed : Bool
  value : Int
deriving DecidableEq

/-- Modelled from the spec: `UpdateSegment`, the update overlay — row-level
value overrides keyed by 1024-row vector-block index. -/
structure UpdateSegmentModel where
  blocks : List (Nat × List UpdateEntry)
deriving DecidableEq

/-- The overlay entries recorded for one vector block. -/
def UpdateSegmentModel.getBlock (u : UpdateSegmentModel) (vidx : Nat) : List UpdateEntry :=
  match u.blocks.find? (fun b => b.1 == vidx) with
  | some b => b.2
  | none => []

/-- Apply a list of overlay entries to a decoded vector. -/
def applyEntries (es : List UpdateEntry) (vals : List Int) : List Int :=
  es.foldl (fun vs e => vs.set e.row e.value) vals

/-- Modelled from the spec: `UpdateSegment::HasUncommittedUpdates(vidx)`. -/
def UpdateSegmentModel.HasUncommittedUpdates (u : UpdateSegmentModel) (vidx : Nat) : Bool :=
  (u.getBlock vidx).any (fun e => !e.committed)

/-- Modelled from the spec: `UpdateSegment::FetchCommitted(vidx, result)` —
overlays only entries with a committed id. -/
def UpdateSegmentModel.FetchCommitted (u : UpdateSegmentModel) (vidx : Nat) (vals : List Int) : List Int :=
  applyEntries ((u.getBlock vidx).filter (fun e => e.committed)) vals

/-- Modelled from the spec: `UpdateSegment::FetchUpdates(transaction, vidx,
result)` — overlays the entries visible to the reading transaction (committed,
or written by the reader itself). -/
def UpdateSegmentModel.FetchUpdatesVisible (u : UpdateSegmentModel) (txn vidx : Nat) (vals : List Int) : List Int :=
  applyEntries ((u.getBlock vidx).filter (fun e => e.committed || e.txn == txn)) vals

/-- Modelled from the spec: `UpdateSegment::FetchRow(transaction, rowIndex,
result, resultIndex)` — overlays the single visible entry for one row, if any. -/
def UpdateSegmentModel.FetchRowU (u : UpdateSegmentModel) (txn rowIdx : Nat) (vals : List Int) (residx : Nat) : List Int :=
  match ((u.getBlock (rowIdx / 1024)).filter
      (fun e => (e.committed || e.txn == txn) && e.row == rowIdx % 1024)).getLast? with
  | some e => vals.set residx e.value
  | none => vals

/-- Embeds `STANDARD_VECTOR_SIZE`: the 1024-row vector-block granularity. -/
def STANDARD_VECTOR_SIZE : Nat := 1024

/-- Embeds `ColumnData`: the per-column coordinator. `segments` is the segment
tree's ordered node list; `updates` the lazily-created update overlay;
`stats` the zone map (owned only by root columns); `parent` whether the
column was constructed with a parent (a nested child column). -/
structure ColumnData where
  start : Nat
  count : Nat
  segments : List Segment
  updates : Option UpdateSegmentModel
  stats : Option BaseStatistics
  parent : Bool
deriving DecidableEq

/-- The `ColumnData` constructor: `count` starts at 0 and a statistics object
is created exactly when the column has no parent. -/
def mkColumnData (startRow : Nat) (hasParent : Bool) : ColumnData :=
  { start := startRow, count := 0, segments := [], updates := none,
    stats := if hasParent then none else some BaseStatistics.CreateEmpty,
    parent := hasParent }

/-- Sum of the segment counts of a node list. -/
def segsCount : List Segment → Nat
  | [] => 0
  | s :: rest => s.count + segsCount rest

/-- Concatenated decoded values of a node list, in segment order. -/
def segsValues : List Segment → List Int
  | [] => []
  | s :: rest => s.values ++ segsValues rest

/-- The segment-tree structural invariant (spec section 3): segments are
contiguous starting at `s`, and each segment's decoded content has exactly
`count` rows. -/
def chainB : Nat → List Segment → Bool
  | _, [] => true
  | s, seg :: rest =>
    (seg.start == s) && (seg.values.length == seg.count) && chainB (s + seg.count) rest

/-- Modelled from the spec: the linear search behind
`SegmentTree::GetSegmentIndex` — first segment whose row range contains
`row`, with `i` the index of the head of the remaining list. -/
def getSegmentIndexGo (row : Nat) : List Segment → Nat → Option Nat
  | [], _ => none
  | seg :: rest, i =>
    if seg.start ≤ row ∧ row < seg.start + seg.count then some i
    else getSegmentIndexGo row rest (i + 1)

/-- Modelled from the spec: `SegmentTree::GetSegmentIndex(rowId)` — locates
the segment owning `rowId`, failing with an internal-consistency error when
`rowId` lies in no segment. -/
def getSegmentIndex (segs : List Segment) (row : Nat) : Except StorageError Nat :=
  match getSegmentIndexGo row segs 0 with
  | some i => .ok i
  | none => .error (.internal "could not find segment for row")

/-- Embeds `ColumnData::HasUpdates`: whether the update overlay exists. -/
def ColumnData.HasUpdates (col : ColumnData) : Bool := col.updates.isSome

/-- Embeds `ColumnData::ClearUpdates`: drop the update overlay wholesale. -/
def ColumnData.ClearUpdates (col : ColumnData) : ColumnData := { col with updates := none }

/-- Embeds `ColumnData::SetStart`'s rebasing loop: assign each segment the running
start offset, accumulating the segment counts. -/
def setStartGo (s : Nat) : List Segment → List Segment
  | [] => []
  | seg :: rest => { seg with start := s } :: setStartGo (s + seg.count) rest

/-- Embeds `ColumnData::SetStart(newStart)`: set the column start and rebase every
segment contiguously from it (the final `Reinitialize` only refreshes the
tree's index and has no observable effect on the node list). -/
def ColumnData.SetStart (col : ColumnData) (newStart : Nat) : ColumnData :=
  { col with start := newStart, segments := setStartGo newStart col.segments }

/-- Embeds `ColumnData::FetchUpdates(transaction, vector_index, result, scan_count,
allow_updates, scan_committed)`: no-op without an overlay; raises a
transaction-conflict error when uncommitted updates exist in the block and
`allow_updates` is false; otherwise overlays the committed (or visible)
entries. `scanCount` only drives the `Flatten` of the result vector. -/
def ColumnData.FetchUpdates (col : ColumnData) (txn vidx : Nat) (result : List Int)
    (_scanCount : Nat) (allowUpdates scanCommitted : Bool) : Except StorageError (List Int) :=
  match col.updates with
  | none => .ok result
  | some u =>
    if !allowUpdates && u.HasUncommittedUpdates vidx then
      .error (.transaction "Cannot create index with outstanding updates")
    else
      .ok (if scanCommitted then u.FetchCommitted vidx result
           else u.FetchUpdatesVisible txn vidx result)

/-- Embeds `ColumnData::FetchUpdateRow(transaction, row_id, result, result_idx)`:
no-op without an overlay, otherwise overlays the row's visible update. The
source performs no allow-updates check here and never throws; the `Except`
return only places it in the same error monad as the other entry points. -/
def ColumnData.FetchUpdateRow (col : ColumnData) (txn rowId : Nat) (result : List Int)
    (residx : Nat) : Except StorageError (List Int) :=
  match col.updates with
  | none => .ok result
  | some u => .ok (u.FetchRowU txn rowId result residx)

/-- Embeds `ColumnData::GetStatistics`: internal error on a column without stats. -/
def ColumnData.GetStatistics (col : ColumnData) : Except StorageError BaseStatistics :=
  match col.stats with
  | none => .error (.internal "ColumnData::GetStatistics called on a column without stats")
  | some s => .ok s

/-- Embeds `ColumnData::MergeStatistics(other)`: merge `other` into the column's own
zone map; internal error on a column without stats. -/
def ColumnData.MergeStatistics (col : ColumnData) (other : BaseStatistics) :
    Except StorageError ColumnData :=
  match col.stats with
  | none => .error (.internal "ColumnData::MergeStatistics called on a column without stats")
  | some s => .ok { col with stats := some (s.Merge other) }

/-- Embeds `ColumnData::MergeIntoStatistics(other)`: merge the column's zone map into
the caller's aggregate; internal error on a column without stats. -/
def ColumnData.MergeIntoStatistics (col : ColumnData) (other : BaseStatistics) :
    Except StorageError BaseStatistics :=
  match col.stats with
  | none => .error (.internal "ColumnData::MergeIntoStatistics called on a column without stats")
  | some s => .ok (other.Merge s)

/-- Embeds `FilterPropagateResult` of a zone-map check. -/
inductive FilterPropagateResult where
  | alwaysTrue
  | alwaysFalse
  | trueOrNull
  | falseOrNull
deriving DecidableEq

/-- Embeds `ColumnData::CheckZonemap(filter)`: internal error on a column without
stats; otherwise false exactly when the filter propagates ALWAYS_FALSE or
FALSE_OR_NULL against the zone map. The filter evaluation itself
(`filter.CheckStatistics`) is an external collaborator, passed as a function. -/
def ColumnData.CheckZonemap (col : ColumnData)
    (filterCheck : BaseStatistics → FilterPropagateResult) : Except StorageError Bool :=
  match col.stats with
  | none => .error (.internal "ColumnData::CheckZonemap called on a column without stats")
  | some s =>
    .ok (match filterCheck s with
         | .alwaysFalse => false
         | .falseOrNull => false
         | _ => true)

/-- A scan cursor (`ColumnScanState`): index of the current segment in the
node list and the absolute row position. The decode sub-states
(`internal_index`, `initialized`, `previous_states`) position the segment's
decoder and do not affect which values are produced; `Skip`-ing from
`internal_index` up to `row_index` is modelled by dropping the corresponding
prefix of the segment's decoded values. -/
structure ColumnScanState where
  current : Nat
  rowIndex : Nat
deriving DecidableEq

/-- The segment-crossing loop of `ColumnData::ScanVector(state, result,
remaining, has_updates)`. Each iteration decodes
`min(remaining, segment end - row_index)` rows from the current segment and,
while rows remain, advances to the successor segment, stopping at the tail.
Returns (segments advanced, rows decoded, decoded values). Each loop iteration
touches one segment, so the recursion is on the successor list. -/
def scanGo (cur : Segment) (rest : List Segment) (rowIndex remaining : Nat) :
    Nat × Nat × List Int :=
  let scanCount := min remaining (cur.start + cur.count - rowIndex)
  let vals := (cur.values.drop (rowIndex - cur.start)).take scanCount
  if remaining - scanCount = 0 then (0, scanCount, vals)
  else
    match rest with
    | [] => (0, scanCount, vals)
    | next :: rest' =>
      let r := scanGo next rest' (rowIndex + scanCount) (remaining - scanCount)
      (r.1 + 1, scanCount + r.2.1, vals ++ r.2.2)

/-- Embeds `ColumnData::ScanVector(state, result, remaining, has_updates)`: decode up
to `remaining` rows from the cursor position, crossing segments; returns the
updated cursor, the number of rows decoded (`initial_remaining - remaining` in
the source) and the decoded values. `hasUpdates` only toggles the
direct-decode (`entire_vector`) optimization inside the segment decoder and
does not change the produced values. -/
def ColumnData.ScanVector (col : ColumnData) (st : ColumnScanState) (remaining : Nat)
    (_hasUpdates : Bool) : ColumnScanState × Nat × List Int :=
  match col.segments.drop st.current with
  | [] => (st, 0, [])
  | cur :: rest =>
    let r := scanGo cur rest st.rowIndex remaining
    ({ current := st.current + r.1, rowIndex := st.rowIndex + r.2.1 }, r.2.1, r.2.2)

/-- The templated `ColumnData::ScanVector<SCAN_COMMITTED, ALLOW_UPDATES>`:
computes the vector block's row range (`vector_index * 1024`, clipped to
`count`; the caller addresses an existing block, so `count - current_row`
does not underflow), decodes it, then overlays updates via `FetchUpdates`. -/
def ColumnData.ScanVectorTC (col : ColumnData) (scanCommitted allowUpdates : Bool)
    (txn vidx : Nat) (st : ColumnScanState) :
    Except StorageError (ColumnScanState × Nat × List Int) :=
  let vectorCount := min STANDARD_VECTOR_SIZE (col.count - vidx * STANDARD_VECTOR_SIZE)
  let r := col.ScanVector st vectorCount col.HasUpdates
  match col.FetchUpdates txn vidx r.2.2 r.2.1 allowUpdates scanCommitted with
  | .error e => .error e
  | .ok vals => .ok (r.1, r.2.1, vals)

/-- Embeds `ColumnData::Scan(transaction, vector_index, state, result)` =
`ScanVector<false, true>`. -/
def ColumnData.Scan (col : ColumnData) (txn vidx : Nat) (st : ColumnScanState) :
    Except StorageError (ColumnScanState × Nat × List Int) :=
  col.ScanVectorTC false true txn vidx st

/-- Embeds `ColumnData::ScanCommitted(vector_index, state, result, allow_updates)`:
`ScanVector<true, true>` or `ScanVector<true, false>` under a zero
transaction. -/
def ColumnData.ScanCommitted (col : ColumnData) (vidx : Nat) (st : ColumnScanState)
    (allowUpdates : Bool) : Except StorageError (ColumnScanState × Nat × List Int) :=
  if allowUpdates then col.ScanVectorTC true true 0 vidx st
  else col.ScanVectorTC true false 0 vidx st

/-- The start of the aligned 1024-row vector block containing `rowId`:
`start + (rowId - start) / STANDARD_VECTOR_SIZE * STANDARD_VECTOR_SIZE`. -/
def alignedBlockStart (colStart rowId : Nat) : Nat :=
  colStart + (rowId - colStart) / STANDARD_VECTOR_SIZE * STANDARD_VECTOR_SIZE

/-- Embeds `ColumnData::Fetch(state, row_id, result)`: position the cursor at the
start of the aligned 1024-row vector block containing `row_id` (the source
asserts `row_id >= start` in debug builds; callers pass in-range row ids),
locate that block's segment, and decode a whole vector block from there
without consulting the update overlay. -/
def ColumnData.Fetch (col : ColumnData) (_st : ColumnScanState) (rowId : Nat) :
    Except StorageError (ColumnScanState × Nat × List Int) :=
  let rowIndex := alignedBlockStart col.start rowId
  match getSegmentIndex col.segments rowIndex with
  | .error e => .error e
  | .ok i =>
    let st' : ColumnScanState := { current := i, rowIndex := rowIndex }
    .ok (col.ScanVector st' STANDARD_VECTOR_SIZE false)

/-- Embeds `ColumnData::InitializeAppend(state)`: ensure a writable transient tail
exists — append an empty transient segment when the tree is empty, and a new
one at the tail boundary when the tail is persistent or its encoding forbids
appends. `cap` is the row capacity `AppendTransientSegment` sizes the new
segment to. After this the cursor's segment is the tail. -/
def ColumnData.InitializeAppend (col : ColumnData) (cap : Nat) : ColumnData :=
  let segs := if col.segments.isEmpty then [Segment.transientSeg col.start cap] else col.segments
  match segs.getLast? with
  | none => { col with segments := segs }
  | some tail =>
    if tail.segmentType = .persistent ∨ tail.appendable = false then
      { col with segments := segs ++ [Segment.transientSeg (tail.start + tail.count) cap] }
    else
      { col with segments := segs }

/-- The tail of `ColumnData::AppendData`'s loop from its second iteration on:
the current segment could not absorb the remainder, so allocate a new
transient segment at the tail boundary (`AppendTransientSegment`), append into
it, merge its statistics into the caller's aggregate, and repeat. `cap > 0`:
a fresh transient segment absorbs at least one row, so the loop terminates. -/
def appendRest (cap : Nat) (hcap : 0 < cap) (startRow : Nat) (agg : BaseStatistics)
    (vdata : List Int) (offset remaining : Nat) : List Segment × BaseStatistics :=
  let seg := (segAppendInto (Segment.transientSeg startRow cap) vdata offset remaining).1
  let copied := (segAppendInto (Segment.transientSeg startRow cap) vdata offset remaining).2
  let agg' := agg.Merge seg.stats
  if hc : copied = remaining then ([seg], agg')
  else
    let r' := appendRest cap hcap (startRow + copied) agg' vdata (offset + copied)
      (remaining - copied)
    (seg :: r'.1, r'.2)
termination_by remaining
decreasing_by
  have hx : (segAppendInto (Segment.transientSeg startRow cap) vdata offset remaining).2
      = min (cap - 0) remaining := by
    simp [segAppendInto, Segment.transientSeg]
  omega

/-- Embeds `ColumnData::AppendData(stats, state, vdata, append_count)`: bump the
column's total `count` by `append_count` first (optimistically, before any
bytes are copied), then run the append loop. The loop's first iteration
appends into the cursor's segment (the tail established by
`InitializeAppend`, modelled as the last node) and merges that segment's
statistics into the caller-supplied aggregate; every later iteration —
`appendRest` — allocates a new transient segment and continues until all rows
are absorbed. -/
def ColumnData.AppendData (col : ColumnData) (cap : Nat) (hcap : 0 < cap)
    (agg : BaseStatistics) (vdata : List Int) (appendCount : Nat) :
    ColumnData × BaseStatistics :=
  match col.segments.getLast? with
  | none =>
    -- unreachable: `InitializeAppend` guarantees a tail segment
    ({ col with count := col.count + appendCount }, agg)
  | some tail =>
    let tailApp := (segAppendInto tail vdata 0 appendCount).1
    let copied := (segAppendInto tail vdata 0 appendCount).2
    let agg' := agg.Merge tailApp.stats
    if copied = appendCount then
      ({ col with
          count := col.count + appendCount
          segments := col.segments.dropLast ++ [tailApp] }, agg')
    else
      let r := appendRest cap hcap (tailApp.start + tailApp.count) agg' vdata copied
        (appendCount - copied)
      ({ col with
          count := col.count + appendCount
          segments := col.segments.dropLast ++ (tailApp :: r.1) }, r.2)

/-- The stats-owning `ColumnData::Append(state, vector, append_count)`
overload: fails with an internal-consistency error on a column with a parent
or without a statistics object; otherwise appends under the statistics lock,
merging into the column's own zone map. -/
def ColumnData.AppendRoot (col : ColumnData) (cap : Nat) (hcap : 0 < cap)
    (vdata : List Int) (appendCount : Nat) : Except StorageError ColumnData :=
  if col.parent || col.stats.isNone then
    .error (.internal "ColumnData::Append called on a column with a parent or without stats")
  else
    match col.stats with
    | none => .error (.internal "ColumnData::Append called on a column with a parent or without stats")
    | some s =>
      match col.AppendData cap hcap s vdata appendCount with
      | (col', s') => .ok { col' with stats := some s' }

/-- Embeds `ColumnData::RevertAppend(start_row)`: no-op when `start_row` is at the
tail boundary (the source's `D_ASSERT(start_row == boundary)` inside the
`start_row >= boundary` branch is modelled as an internal error past the
boundary, its debug-build behaviour); otherwise locate the owning segment,
erase every later segment, truncate `count` to `start_row - start` and
discard the owning segment's rows at or after `start_row` in place. An
empty tree has no last segment to read the boundary from (the source would
dereference null); modelled as an internal error. -/
def ColumnData.RevertAppend (col : ColumnData) (startRow : Nat) :
    Except StorageError ColumnData :=
  match col.segments.getLast? with
  | none => .error (.internal "RevertAppend on an empty segment tree")
  | some last =>
    if startRow ≥ last.start + last.count then
      if startRow = last.start + last.count then .ok col
      else .error (.internal "RevertAppend: start row past the end of the column")
    else
      match getSegmentIndex col.segments startRow with
      | .error e => .error e
      | .ok i =>
        match col.segments.get? i with
        | none => .error (.internal "RevertAppend: invalid segment index")
        | some seg =>
          .ok { col with
                count := startRow - col.start
                segments := col.segments.take i ++ [seg.RevertAppendSeg startRow] }

/-- The result of a checkpoint (`ColumnCheckpointState`): the rebuilt segment
list and the merged statistics, initialized empty. -/
structure ColumnCheckpointState where
  newTree : List Segment
  globalStats : BaseStatistics
deriving DecidableEq

/-- Embeds `ColumnData::Checkpoint(row_group, checkpoint_info)`: move the entire
node list out of the tree; when it is empty, return the empty checkpoint
state without replacing anything; otherwise hand the moved-out list to the
checkpointer collaborator (modelled from the spec as a function `rebuild`
producing the compacted segment list and its merged statistics), `Replace`
the tree with the rebuilt list and clear the update overlay. -/
def ColumnData.Checkpoint (col : ColumnData)
    (rebuild : List Segment → List Segment × BaseStatistics) :
    ColumnData × ColumnCheckpointState :=
  let nodes := col.segments
  let colMoved := { col with segments := [] }
  if nodes.isEmpty then
    (colMoved, { newTree := [], globalStats := BaseStatistics.CreateEmpty })
  else
    let r := rebuild nodes
    ({ colMoved with segments := r.1, updates := none },
     { newTree := r.1, globalStats := r.2 })

/-- A persisted data-pointer record. `values` stands for the decoded content
of the pointed-to block (the decode contract of spec section 6 yields exactly
`tupleCount` rows). -/
structure DataPointer where
  blockId : Nat
  blockOffset : Nat
  rowStart : Nat
  tupleCount : Nat
  stats : BaseStatistics
  values : List Int
deriving DecidableEq

/-- Modelled from the spec: `ColumnSegment::CreatePersistentSegment` — a
sealed, block-backed segment reconstructed from one data-pointer record. -/
def mkPersistentSegment (p : DataPointer) : Segment :=
  { start := p.rowStart, count := p.tupleCount, capacity := p.tupleCount,
    segmentType := .persistent, appendable := false, values := p.values,
    stats := p.stats }

/-- Embeds `ColumnData::DeserializeColumn(deserializer, target_stats)`: reset
`count` to 0, then for each data-pointer record in order: add its tuple
count to `count`, merge its statistics into the target statistics, and
append one persistent segment reconstructed from it. -/
def ColumnData.DeserializeColumn (col : ColumnData) (pointers : List DataPointer)
    (target : BaseStatistics) : ColumnData × BaseStatistics :=
  pointers.foldl
    (fun acc p =>
      ({ acc.1 with
          count := acc.1.count + p.tupleCount
          segments := acc.1.segments ++ [mkPersistentSegment p] },
       acc.2.Merge p.stats))
    ({ col with count := 0 }, target)

/-- The overlay application performed by a `Scan` (`ScanVector<..., true>`):
with no overlay the decoded values pass through; otherwise the entries of the
block visible to the transaction are applied. -/
def overlayVisible (upd : Option UpdateSegmentModel) (txn vidx : Nat) (vals : List Int) :
    List Int :=
  match upd with
  | none => vals
  | some u => u.FetchUpdatesVisible txn vidx vals

/-! ### Concrete fixtures used by the witness theorems -/

/-- A transient tail segment holding one row with room for one more. -/
def wSeg1 : Segment :=
  { start := 0, count := 2, capacity := 2, segmentType := .transient,
    appendable := true, values := [10, 20], stats := ⟨some 10, some 20⟩ }

/-- A transient tail segment holding two rows with room for one more. -/
def wSeg2 : Segment :=
  { start := 2, count := 2, capacity := 3, segmentType := .transient,
    appendable := true, values := [30, 40], stats := ⟨some 30, some 40⟩ }

/-- A populated two-segment root column. -/
def wCol : ColumnData :=
  { start := 0, count := 4, segments := [wSeg1, wSeg2], updates := none,
    stats := some ⟨some 10, some 40⟩, parent := false }

/-- An overlay holding one uncommitted entry (transaction 7) in vector block 0. -/
def wOverlayU : UpdateSegmentModel := ⟨[(0, [⟨0, 7, false, 42⟩])]⟩

/-- Fixture: `wCol` carrying the uncommitted overlay `wOverlayU`. -/
def wColU : ColumnData := { wCol with updates := some wOverlayU }

/-- An overlay holding one committed entry in vector block 0. -/
def wOverlayC : UpdateSegmentModel := ⟨[(0, [⟨1, 3, true, 99⟩])]⟩

/-- Fixture: `wCol` carrying the committed overlay `wOverlayC`. -/
def wColC : ColumnData := { wCol with updates := some wOverlayC }

/-! ### Structural lemmas about segment lists and the chain invariant -/

theorem segsCount_append (xs ys : List Segment) :
    segsCount (xs ++ ys) = segsCount xs + segsCount ys := by
  induction xs with
  | nil => simp [segsCount]
  | cons x xs ih => simp [segsCount, ih]; omega

theorem segsValues_append (xs ys : List Segment) :
    segsValues (xs ++ ys) = segsValues xs ++ segsValues ys := by
  induction xs with
  | nil => simp [segsValues]
  | cons x xs ih => simp [segsValues, ih]

theorem chainB_cons {s : Nat} {seg : Segment} {rest : List Segment} :
    chainB s (seg :: rest) = true ↔
      seg.start = s ∧ seg.values.length = seg.count ∧ chainB (s + seg.count) rest = true := by
  simp [chainB, Bool.and_eq_true, beq_iff_eq, and_assoc]

theorem segsValues_length_of_chain :
    ∀ (segs : List Segment) (s : Nat), chainB s segs = true →
      (segsValues segs).length = segsCount segs := by
  intro segs
  induction segs with
  | nil => intro s _; simp [segsValues, segsCount]
  | cons x xs ih =>
    intro s h
    rw [chainB_cons] at h
    simp [segsValues, segsCount, h.2.1, ih _ h.2.2]

theorem chainB_getLast :
    ∀ (segs : List Segment) (s : Nat) (last : Segment),
      chainB s segs = true → segs.getLast? = some last →
      last.start + last.count = s + segsCount segs := by
  intro segs
  induction segs with
  | nil => intro s last _ hl; simp at hl
  | cons x xs ih =>
    intro s last h hl
    rw [chainB_cons] at h
    match xs, hl with
    | [], hl =>
      simp at hl
      subst hl
      simp [segsCount, h.1]
    | y :: ys, hl =>
      rw [List.getLast?_cons_cons] at hl
      have := ih _ _ h.2.2 hl
      simp [segsCount] at this ⊢
      omega

theorem chainB_get? :
    ∀ (segs : List Segment) (s k : Nat) (seg : Segment),
      chainB s segs = true → segs.get? k = some seg →
      seg.start = s + segsCount (segs.take k)
      ∧ chainB seg.start (segs.drop k) = true
      ∧ segs.drop k = seg :: segs.drop (k + 1)
      ∧ (segsValues (segs.take k)).length = segsCount (segs.take k) := by
  intro segs
  induction segs with
  | nil => intro s k seg _ hg; simp at hg
  | cons x xs ih =>
    intro s k seg h hg
    rw [chainB_cons] at h
    match k, hg with
    | 0, hg =>
      simp at hg
      subst hg
      refine ⟨by simp [segsCount, h.1], ?_, by simp, by simp [segsValues, segsCount]⟩
      rw [List.drop_zero, chainB_cons]
      exact ⟨rfl, h.2.1, by rw [h.1]; exact h.2.2⟩
    | k + 1, hg =>
      rw [List.get?_cons_succ] at hg
      obtain ⟨e1, e2, e3, e4⟩ := ih (s + x.count) k seg h.2.2 hg
      refine ⟨by simp [segsCount, e1]; omega, e2, by simpa using e3, ?_⟩
      simp [segsValues, segsCount, h.2.1, e4]

theorem getGo_below :
    ∀ (segs : List Segment) (s row j : Nat),
      chainB s segs = true → row < s → getSegmentIndexGo row segs j = none := by
  intro segs
  induction segs with
  | nil => intro s row j _ _; rfl
  | cons x xs ih =>
    intro s row j h hr
    rw [chainB_cons] at h
    unfold getSegmentIndexGo
    rw [if_neg (by omega)]
    exact ih (s + x.count) row (j + 1) h.2.2 (by omega)

theorem getGo_found :
    ∀ (segs : List Segment) (s row j : Nat),
      chainB s segs = true → s ≤ row → row < s + segsCount segs →
      ∃ k seg, getSegmentIndexGo row segs j = some (j + k) ∧ segs.get? k = some seg ∧
        seg.start ≤ row ∧ row < seg.start + seg.count := by
  intro segs
  induction segs with
  | nil => intro s row j _ hs hlt; simp [segsCount] at hlt; omega
  | cons x xs ih =>
    intro s row j h hs hlt
    rw [chainB_cons] at h
    obtain ⟨hstart, hlen, hchain⟩ := h
    by_cases hc : row < x.start + x.count
    · refine ⟨0, x, ?_, rfl, by omega, hc⟩
      unfold getSegmentIndexGo
      rw [if_pos ⟨by omega, hc⟩]
      simp
    · unfold getSegmentIndexGo
      rw [if_neg (by omega)]
      simp only [segsCount] at hlt
      obtain ⟨k, seg, hgo, hget, hb1, hb2⟩ :=
        ih (s + x.count) row (j + 1) hchain (by omega) (by omega)
      exact ⟨k + 1, seg, by rw [hgo]; congr 1; omega, by simpa using hget, hb1, hb2⟩

theorem getSegmentIndex_found (segs : List Segment) (s row : Nat)
    (h : chainB s segs = true) (hs : s ≤ row) (hlt : row < s + segsCount segs) :
    ∃ k seg, getSegmentIndex segs row = .ok k ∧ segs.get? k = some seg ∧
      seg.start ≤ row ∧ row < seg.start + seg.count := by
  obtain ⟨k, seg, hgo, hget, hb1, hb2⟩ := getGo_found segs s row 0 h hs hlt
  refine ⟨k, seg, ?_, hget, hb1, hb2⟩
  unfold getSegmentIndex
  rw [hgo]
  simp

theorem getSegmentIndex_below (segs : List Segment) (s row : Nat)
    (h : chainB s segs = true) (hr : row < s) :
    getSegmentIndex segs row = .error (.internal "could not find segment for row") := by
  unfold getSegmentIndex
  rw [getGo_below segs s row 0 h hr]

/-! ### Unfolding lemmas for the scan loop -/

theorem scanGo_nil (cur : Segment) (rowIndex remaining : Nat) :
    scanGo cur [] rowIndex remaining =
      (0, min remaining (cur.start + cur.count - rowIndex),
       (cur.values.drop (rowIndex - cur.start)).take
         (min remaining (cur.start + cur.count - rowIndex))) := by
  rw [scanGo.eq_def]
  split <;> simp_all

theorem scanGo_done (cur : Segment) (rest : List Segment) (rowIndex remaining : Nat)
    (h : remaining - min remaining (cur.start + cur.count - rowIndex) = 0) :
    scanGo cur rest rowIndex remaining =
      (0, min remaining (cur.start + cur.count - rowIndex),
       (cur.values.drop (rowIndex - cur.start)).take
         (min remaining (cur.start + cur.count - rowIndex))) := by
  rw [scanGo.eq_def]
  split <;> simp_all

theorem scanGo_cons_continue (cur next : Segment) (rest' : List Segment)
    (rowIndex remaining : Nat)
    (h : ¬remaining - min remaining (cur.start + cur.count - rowIndex) = 0) :
    scanGo cur (next :: rest') rowIndex remaining =
      ((scanGo next rest' (rowIndex + min remaining (cur.start + cur.count - rowIndex))
          (remaining - min remaining (cur.start + cur.count - rowIndex))).1 + 1,
       min remaining (cur.start + cur.count - rowIndex) +
         (scanGo next rest' (rowIndex + min remaining (cur.start + cur.count - rowIndex))
           (remaining - min remaining (cur.start + cur.count - rowIndex))).2.1,
       (cur.values.drop (rowIndex - cur.start)).take
           (min remaining (cur.start + cur.count - rowIndex)) ++
         (scanGo next rest' (rowIndex + min remaining (cur.start + cur.count - rowIndex))
           (remaining - min remaining (cur.start + cur.count - rowIndex))).2.2) := by
  conv_lhs => rw [scanGo.eq_def]
  split
  · rename_i heq
    simp at heq
  · rename_i s r heq
    injection heq with h1 h2
    subst h1
    subst h2
    simp only [if_neg h]

/-- What the scan loop produces when the cursor starts inside its current
segment and the chain invariant holds from that segment on: it decodes
exactly `min remaining (chain end - row index)` rows, and those rows are the
corresponding slice of the chain's concatenated values. -/
theorem scanGo_spec :
    ∀ (rest : List Segment) (cur : Segment) (rowIndex remaining : Nat),
      chainB cur.start (cur :: rest) = true →
      cur.start ≤ rowIndex → rowIndex ≤ cur.start + cur.count →
      (scanGo cur rest rowIndex remaining).2.1 =
          min remaining (cur.start + segsCount (cur :: rest) - rowIndex)
      ∧ (scanGo cur rest rowIndex remaining).2.2 =
          ((segsValues (cur :: rest)).drop (rowIndex - cur.start)).take
            (min remaining (cur.start + segsCount (cur :: rest) - rowIndex)) := by
  intro rest
  induction rest with
  | nil =>
    intro cur rowIndex remaining hch h1 h2
    rw [scanGo_nil]
    constructor
    · simp [segsCount]
    · simp [segsValues, segsCount]
  | cons next rest' ih =>
    intro cur rowIndex remaining hch h1 h2
    have hlen : cur.values.length = cur.count := (chainB_cons.mp hch).2.1
    have hch' : chainB (cur.start + cur.count) (next :: rest') = true := (chainB_cons.mp hch).2.2
    have hnext : next.start = cur.start + cur.count := (chainB_cons.mp hch').1
    by_cases hdone : remaining - min remaining (cur.start + cur.count - rowIndex) = 0
    · rw [scanGo_done cur (next :: rest') rowIndex remaining hdone]
      constructor
      · simp only [segsCount]
        omega
      · have heq : min remaining (cur.start + cur.count - rowIndex)
            = min remaining (cur.start + segsCount (cur :: next :: rest') - rowIndex) := by
          simp only [segsCount]
          omega
        rw [heq]
        conv_rhs => rw [segsValues]
        rw [List.drop_append_of_le_length (by omega),
            List.take_append_of_le_length (by simp only [List.length_drop]; omega)]
    · rw [scanGo_cons_continue cur next rest' rowIndex remaining hdone]
      have hchN : chainB next.start (next :: rest') = true := by
        rw [hnext]
        exact hch'
      obtain ⟨ihc, ihv⟩ := ih next (rowIndex + min remaining (cur.start + cur.count - rowIndex))
        (remaining - min remaining (cur.start + cur.count - rowIndex)) hchN
        (by omega) (by omega)
      have hlenA : (cur.values.drop (rowIndex - cur.start)).length
          = min remaining (cur.start + cur.count - rowIndex) := by
        simp only [List.length_drop]
        omega
      constructor
      · rw [ihc]
        simp only [segsCount]
        omega
      · rw [ihv]
        have hzero : rowIndex + min remaining (cur.start + cur.count - rowIndex) - next.start
            = 0 := by omega
        rw [hzero, List.drop_zero]
        conv_rhs => rw [segsValues]
        rw [List.drop_append_of_le_length (by omega), List.take_append_eq_append_take]
        have harg : min (remaining - min remaining (cur.start + cur.count - rowIndex))
              (next.start + segsCount (next :: rest') -
                (rowIndex + min remaining (cur.start + cur.count - rowIndex)))
            = min remaining (cur.start + segsCount (cur :: next :: rest') - rowIndex)
              - (cur.values.drop (rowIndex - cur.start)).length := by
          rw [hlenA]
          simp only [segsCount]
          omega
        rw [harg,
            List.take_of_length_le (l := cur.values.drop (rowIndex - cur.start)) (by omega),
            List.take_of_length_le (l := cur.values.drop (rowIndex - cur.start))
              (by rw [hlenA]; simp only [segsCount]; omega)]

/-- Column-level form of `scanGo_spec`: when the cursor's segment index and
row position are consistent with the chain invariant, `ScanVector` decodes
`min remaining (column end - row index)` rows, and they are exactly the
corresponding slice of the column's concatenated segment values. -/
theorem ScanVector_spec (col : ColumnData) (st : ColumnScanState) (remaining : Nat)
    (hasUpdates : Bool) (cur : Segment)
    (hch : chainB col.start col.segments = true)
    (hget : col.segments.get? st.current = some cur)
    (h1 : cur.start ≤ st.rowIndex) (h2 : st.rowIndex ≤ cur.start + cur.count) :
    (col.ScanVector st remaining hasUpdates).2.1 =
        min remaining (col.start + segsCount col.segments - st.rowIndex)
    ∧ (col.ScanVector st remaining hasUpdates).2.2 =
        ((segsValues col.segments).drop (st.rowIndex - col.start)).take
          (min remaining (col.start + segsCount col.segments - st.rowIndex)) := by
  obtain ⟨hstart, hchd, hdropeq, hlentake⟩ :=
    chainB_get? col.segments col.start st.current cur hch hget
  have hsplit : col.segments
      = col.segments.take st.current ++ (cur :: col.segments.drop (st.current + 1)) := by
    conv_lhs => rw [← List.take_append_drop st.current col.segments]
    rw [hdropeq]
  have hchd' : chainB cur.start (cur :: col.segments.drop (st.current + 1)) = true := by
    rw [← hdropeq]
    exact hchd
  obtain ⟨hc, hv⟩ :=
    scanGo_spec (col.segments.drop (st.current + 1)) cur st.rowIndex remaining hchd' h1 h2
  have hrun : col.ScanVector st remaining hasUpdates
      = ({ current := st.current
              + (scanGo cur (col.segments.drop (st.current + 1)) st.rowIndex remaining).1,
           rowIndex := st.rowIndex
              + (scanGo cur (col.segments.drop (st.current + 1)) st.rowIndex remaining).2.1 },
         (scanGo cur (col.segments.drop (st.current + 1)) st.rowIndex remaining).2.1,
         (scanGo cur (col.segments.drop (st.current + 1)) st.rowIndex remaining).2.2) := by
    unfold ColumnData.ScanVector
    rw [hdropeq]
  have htot : cur.start + segsCount (cur :: col.segments.drop (st.current + 1))
      = col.start + segsCount col.segments := by
    conv_rhs => rw [hsplit]
    rw [segsCount_append]
    omega
  have hslice : (segsValues col.segments).drop (st.rowIndex - col.start)
      = (segsValues (cur :: col.segments.drop (st.current + 1))).drop
          (st.rowIndex - cur.start) := by
    conv_lhs => rw [hsplit, segsValues_append, List.drop_append_eq_append_drop]
    rw [List.drop_eq_nil_of_le (by rw [hlentake]; omega), List.nil_append]
    congr 1
    rw [hlentake]
    omega
  constructor
  · rw [hrun, hc, htot]
  · rw [hrun, hv, htot, ← hslice]

/-- The `FetchUpdates` path with `allow_updates = true` and `scan_committed = false`
(the `Scan` read path) never raises and applies the visible overlay entries. -/
theorem fetchUpdates_allow (col : ColumnData) (txn vidx : Nat) (result : List Int)
    (sc : Nat) :
    col.FetchUpdates txn vidx result sc true false
      = .ok (overlayVisible col.updates txn vidx result) := by
  unfold ColumnData.FetchUpdates overlayVisible
  cases col.updates with
  | none => rfl
  | some u => simp

/-- The `ScanVector<false, true>` instantiation (the `Scan` entry point) in terms of the
decode step and the visible-overlay application. -/
theorem scanVectorTC_scan (col : ColumnData) (txn vidx : Nat) (st : ColumnScanState) :
    col.ScanVectorTC false true txn vidx st
      = .ok ((col.ScanVector st
            (min STANDARD_VECTOR_SIZE (col.count - vidx * STANDARD_VECTOR_SIZE))
            col.HasUpdates).1,
          (col.ScanVector st
            (min STANDARD_VECTOR_SIZE (col.count - vidx * STANDARD_VECTOR_SIZE))
            col.HasUpdates).2.1,
          overlayVisible col.updates txn vidx
            ((col.ScanVector st
              (min STANDARD_VECTOR_SIZE (col.count - vidx * STANDARD_VECTOR_SIZE))
              col.HasUpdates).2.2)) := by
  unfold ColumnData.ScanVectorTC
  simp only [fetchUpdates_allow]

/-- What the allocate-and-continue tail of the append loop produces: the new
transient segments absorb exactly the requested slice of the input, they
chain contiguously from the given start row, and the returned aggregate is
the fold of the per-chunk statistics merges in loop order. -/
theorem appendRest_spec (cap : Nat) (hcap : 0 < cap) (vdata : List Int) :
    ∀ (remaining startRow offset : Nat) (agg : BaseStatistics),
      offset + remaining ≤ vdata.length →
      segsCount (appendRest cap hcap startRow agg vdata offset remaining).1 = remaining
      ∧ segsValues (appendRest cap hcap startRow agg vdata offset remaining).1
          = (vdata.drop offset).take remaining
      ∧ chainB startRow (appendRest cap hcap startRow agg vdata offset remaining).1 = true
      ∧ (appendRest cap hcap startRow agg vdata offset remaining).2
          = (appendRest cap hcap startRow agg vdata offset remaining).1.foldl
              (fun a s => a.Merge s.stats) agg := by
  intro remaining
  induction remaining using Nat.strong_induction_on with
  | _ remaining ih =>
    intro startRow offset agg hlen
    have h2e : (segAppendInto (Segment.transientSeg startRow cap) vdata offset remaining).2
        = min cap remaining := by
      simp [segAppendInto, Segment.transientSeg]
    have hst : (segAppendInto (Segment.transientSeg startRow cap) vdata offset remaining).1.start
        = startRow := by
      simp [segAppendInto, Segment.transientSeg]
    have hcnt : (segAppendInto (Segment.transientSeg startRow cap) vdata offset remaining).1.count
        = min cap remaining := by
      simp [segAppendInto, Segment.transientSeg]
    have hval : (segAppendInto (Segment.transientSeg startRow cap) vdata offset remaining).1.values
        = (vdata.drop offset).take (min cap remaining) := by
      simp [segAppendInto, Segment.transientSeg]
    rw [appendRest.eq_def]
    simp only [h2e]
    by_cases hc : min cap remaining = remaining
    · rw [dif_pos hc]
      refine ⟨?_, ?_, ?_, ?_⟩
      · simp only [segsCount, hcnt]
        omega
      · simp only [segsValues, hval, List.append_nil, hc]
      · rw [chainB_cons]
        refine ⟨hst, ?_, ?_⟩
        · rw [hval, hcnt]
          simp only [List.length_take, List.length_drop]
          omega
        · simp [chainB]
      · simp only [List.foldl_cons, List.foldl_nil]
    · rw [dif_neg hc]
      obtain ⟨ic, iv, ichain, istat⟩ :=
        ih (remaining - min cap remaining) (by omega) (startRow + min cap remaining)
          (offset + min cap remaining)
          (agg.Merge
            (segAppendInto (Segment.transientSeg startRow cap) vdata offset remaining).1.stats)
          (by omega)
      refine ⟨?_, ?_, ?_, ?_⟩
      · simp only [segsCount, hcnt, ic]
        omega
      · simp only [segsValues, hval, iv]
        conv_rhs =>
          rw [show remaining = min cap remaining + (remaining - min cap remaining) by omega]
        rw [List.take_add, List.drop_drop]
      · rw [chainB_cons]
        refine ⟨hst, ?_, ?_⟩
        · rw [hval, hcnt]
          simp only [List.length_take, List.length_drop]
          omega
        · rw [hcnt]
          exact ichain
      · simp only [List.foldl_cons]
        exact istat

theorem getLast?_decomp (segs : List Segment) (tail : Segment)
    (h : segs.getLast? = some tail) : segs = segs.dropLast ++ [tail] := by
  have hne : segs ≠ [] := by
    intro he
    subst he
    simp at h
  have hd := List.dropLast_append_getLast hne
  rw [List.getLast?_eq_getLast segs hne] at h
  have heq : segs.getLast hne = tail := Option.some_inj.mp h
  rw [heq] at hd
  exact hd.symm

theorem chainB_append (xs : List Segment) :
    ∀ (ys : List Segment) (s : Nat),
      chainB s (xs ++ ys) = (chainB s xs && chainB (s + segsCount xs) ys) := by
  induction xs with
  | nil =>
    intro ys s
    simp [chainB, segsCount]
  | cons x xs ih =>
    intro ys s
    simp only [List.cons_append, List.append_eq, chainB, ih, segsCount, ← Nat.add_assoc,
      Bool.and_assoc]

/-- Claim C1: an append of `n` rows via `AppendData` increments the column's
total count by `n` (the bump is performed before the copy loop in the
definition), repeatedly delegates to the tail segment — allocating new
transient segments whenever a segment absorbs fewer rows than remain — until
all `n` rows are absorbed (the concatenated segment values grow by exactly
the appended slice), and after the call the sum of the segment counts equals
the column count; the returned aggregate is the fold of the per-chunk merges
of the touched segments' statistics, in loop order. -/
theorem AppendData_spec (col : ColumnData) (cap : Nat) (hcap : 0 < cap)
    (agg : BaseStatistics) (vdata : List Int) (n : Nat) (tail : Segment)
    (htail : col.segments.getLast? = some tail)
    (hch : chainB col.start col.segments = true)
    (hsum : segsCount col.segments = col.count)
    (hlen : n ≤ vdata.length) :
    (col.AppendData cap hcap agg vdata n).1.count = col.count + n
    ∧ segsCount (col.AppendData cap hcap agg vdata n).1.segments = col.count + n
    ∧ segsValues (col.AppendData cap hcap agg vdata n).1.segments
        = segsValues col.segments ++ vdata.take n
    ∧ chainB col.start (col.AppendData cap hcap agg vdata n).1.segments = true
    ∧ (col.AppendData cap hcap agg vdata n).2
        = ((col.AppendData cap hcap agg vdata n).1.segments.drop
            (col.segments.length - 1)).foldl (fun a s => a.Merge s.stats) agg := by
  have hdecomp : col.segments = col.segments.dropLast ++ [tail] :=
    getLast?_decomp col.segments tail htail
  have hchsplit : chainB col.start (col.segments.dropLast ++ [tail]) = true := by
    rw [← hdecomp]
    exact hch
  rw [chainB_append, Bool.and_eq_true] at hchsplit
  have hDL : chainB col.start col.segments.dropLast = true := hchsplit.1
  obtain ⟨htstart, htlen, -⟩ := chainB_cons.mp hchsplit.2
  have hsumDL : segsCount col.segments.dropLast + tail.count = col.count := by
    rw [← hsum]
    conv_rhs => rw [hdecomp]
    rw [segsCount_append]
    simp [segsCount]
  have hlenidx : col.segments.length - 1 = col.segments.dropLast.length := by
    rw [List.length_dropLast]
  have t2e : (segAppendInto tail vdata 0 n).2 = min (tail.capacity - tail.count) n := by
    simp [segAppendInto]
  have tst : (segAppendInto tail vdata 0 n).1.start = tail.start := by
    simp [segAppendInto]
  have tcnt : (segAppendInto tail vdata 0 n).1.count
      = tail.count + min (tail.capacity - tail.count) n := by
    simp [segAppendInto]
  have tval : (segAppendInto tail vdata 0 n).1.values
      = tail.values ++ vdata.take (min (tail.capacity - tail.count) n) := by
    simp [segAppendInto]
  simp only [ColumnData.AppendData, htail, t2e]
  by_cases hcop : min (tail.capacity - tail.count) n = n
  · rw [if_pos hcop]
    refine ⟨rfl, ?_, ?_, ?_, ?_⟩
    · simp only [segsCount_append, segsCount, tcnt, hcop]
      omega
    · conv_rhs => rw [hdecomp]
      simp only [segsValues_append, segsValues, tval, hcop, List.append_nil,
        List.append_assoc]
    · rw [chainB_append, Bool.and_eq_true]
      refine ⟨hDL, ?_⟩
      rw [chainB_cons]
      refine ⟨by rw [tst, htstart], ?_, by simp [chainB]⟩
      rw [tval, tcnt]
      simp only [List.length_append, List.length_take]
      omega
    · rw [hlenidx, List.drop_left]
      simp only [List.foldl_cons, List.foldl_nil]
  · rw [if_neg hcop]
    obtain ⟨rc, rv, rchain, rstat⟩ :=
      appendRest_spec cap hcap vdata (n - min (tail.capacity - tail.count) n)
        ((segAppendInto tail vdata 0 n).1.start + (segAppendInto tail vdata 0 n).1.count)
        (min (tail.capacity - tail.count) n)
        (agg.Merge (segAppendInto tail vdata 0 n).1.stats) (by omega)
    refine ⟨rfl, ?_, ?_, ?_, ?_⟩
    · rw [segsCount_append]
      simp only [segsCount]
      rw [rc, tcnt]
      omega
    · conv_rhs => rw [hdecomp]
      simp only [segsValues_append, segsValues, tval, rv, List.append_nil,
        List.append_assoc]
      congr 2
      conv_rhs =>
        rw [show n = min (tail.capacity - tail.count) n
              + (n - min (tail.capacity - tail.count) n) by omega]
      rw [List.take_add]
    · rw [chainB_append, Bool.and_eq_true]
      refine ⟨hDL, ?_⟩
      rw [chainB_cons]
      refine ⟨by rw [tst, htstart], ?_, ?_⟩
      · rw [tval, tcnt]
        simp only [List.length_append, List.length_take]
        omega
      · have hS : col.start + segsCount col.segments.dropLast
              + (segAppendInto tail vdata 0 n).1.count
            = (segAppendInto tail vdata 0 n).1.start
              + (segAppendInto tail vdata 0 n).1.count := by
          rw [tst, htstart]
        rw [hS]
        exact rchain
    · rw [hlenidx, List.drop_left]
      simp only [List.foldl_cons]
      exact rstat

/-- Claim C3: after a successful `Checkpoint` on a non-empty column the
rebuilt segment list is swapped in via `Replace` and the update overlay is
cleared (empty immediately after checkpoint); when the moved-out list is
empty, `Checkpoint` is a no-op returning an empty checkpoint result without
replacing the tree. -/
theorem checkpoint_spec (col : ColumnData)
    (rebuild : List Segment → List Segment × BaseStatistics) :
    (col.segments ≠ [] →
        (col.Checkpoint rebuild).1.segments = (rebuild col.segments).1
        ∧ (col.Checkpoint rebuild).1.updates = none
        ∧ (col.Checkpoint rebuild).2.newTree = (rebuild col.segments).1
        ∧ (col.Checkpoint rebuild).2.globalStats = (rebuild col.segments).2)
    ∧ (col.segments = [] →
        (col.Checkpoint rebuild).1 = col
        ∧ (col.Checkpoint rebuild).2
            = { newTree := [], globalStats := BaseStatistics.CreateEmpty }) := by
  constructor
  · intro hne
    have hemp : col.segments.isEmpty = false := by
      cases hs : col.segments with
      | nil => exact absurd hs hne
      | cons a l => rfl
    simp [ColumnData.Checkpoint, hemp]
  · intro he
    have hemp : col.segments.isEmpty = true := by
      rw [he]
      rfl
    refine ⟨?_, ?_⟩
    · simp only [ColumnData.Checkpoint, hemp]
      cases col
      simp_all
    · simp [ColumnData.Checkpoint, hemp]

/-- Claim C5 (amended): `FetchUpdates` raises the transaction-conflict error
exactly when uncommitted updates exist in the requested vector block and
`allow_updates` is false, and a committed-only scan with `allow_updates =
false` over a block with only committed updates succeeds and reflects them;
`FetchUpdateRow`, by contrast, performs no such check and never raises the
conflict error. -/
theorem fetch_updates_conflict_spec (col : ColumnData) (u : UpdateSegmentModel)
    (txn vidx rowId residx : Nat) (result : List Int) (scanCount : Nat)
    (st : ColumnScanState)
    (hu : col.updates = some u) :
    (u.HasUncommittedUpdates vidx = true →
        isTransactionError (col.FetchUpdates txn vidx result scanCount false true) = true
        ∧ isTransactionError (col.FetchUpdates txn vidx result scanCount false false) = true
        ∧ isTransactionError (col.ScanCommitted vidx st false) = true)
    ∧ (u.HasUncommittedUpdates vidx = false →
        col.FetchUpdates txn vidx result scanCount false true
            = .ok (u.FetchCommitted vidx result)
        ∧ col.ScanCommitted vidx st false
            = .ok ((col.ScanVector st (min STANDARD_VECTOR_SIZE
                    (col.count - vidx * STANDARD_VECTOR_SIZE)) col.HasUpdates).1,
                (col.ScanVector st (min STANDARD_VECTOR_SIZE
                    (col.count - vidx * STANDARD_VECTOR_SIZE)) col.HasUpdates).2.1,
                u.FetchCommitted vidx
                  ((col.ScanVector st (min STANDARD_VECTOR_SIZE
                      (col.count - vidx * STANDARD_VECTOR_SIZE)) col.HasUpdates).2.2)))
    ∧ col.FetchUpdateRow txn rowId result residx
        = .ok (u.FetchRowU txn rowId result residx) := by
  refine ⟨fun hunc => ⟨?_, ?_, ?_⟩, fun hcom => ⟨?_, ?_⟩, ?_⟩
  · simp [ColumnData.FetchUpdates, isTransactionError, hu, hunc]
  · simp [ColumnData.FetchUpdates, isTransactionError, hu, hunc]
  · simp [ColumnData.ScanCommitted, ColumnData.ScanVectorTC, ColumnData.FetchUpdates,
      isTransactionError, hu, hunc]
  · simp [ColumnData.FetchUpdates, hu, hcom]
  · simp [ColumnData.ScanCommitted, ColumnData.ScanVectorTC, ColumnData.FetchUpdates,
      hu, hcom]
  · simp [ColumnData.FetchUpdateRow, hu]

/-- Claim C5 counterexample: a column whose overlay holds an uncommitted
update in the requested range, on which `FetchUpdateRow` nevertheless
succeeds (returns without any transaction-conflict error) — the source's
`FetchUpdateRow` takes no `allow_updates` flag and performs no conflict
check. -/
theorem fetch_update_row_no_conflict_check :
    wOverlayU.HasUncommittedUpdates 0 = true
    ∧ wColU.FetchUpdateRow 1 0 [5] 0 = .ok [5] :=
  ⟨rfl, rfl⟩

theorem deserialize_fold_aux (ps : List DataPointer) :
    ∀ (c : ColumnData) (t : BaseStatistics),
      (ps.foldl (fun acc p =>
          ({ acc.1 with
              count := acc.1.count + p.tupleCount
              segments := acc.1.segments ++ [mkPersistentSegment p] },
           acc.2.Merge p.stats)) (c, t)).1.count
        = c.count + (ps.map DataPointer.tupleCount).sum
      ∧ (ps.foldl (fun acc p =>
          ({ acc.1 with
              count := acc.1.count + p.tupleCount
              segments := acc.1.segments ++ [mkPersistentSegment p] },
           acc.2.Merge p.stats)) (c, t)).1.segments
        = c.segments ++ ps.map mkPersistentSegment
      ∧ (ps.foldl (fun acc p =>
          ({ acc.1 with
              count := acc.1.count + p.tupleCount
              segments := acc.1.segments ++ [mkPersistentSegment p] },
           acc.2.Merge p.stats)) (c, t)).2
        = ps.foldl (fun s p => s.Merge p.stats) t := by
  induction ps with
  | nil =>
    intro c t
    simp
  | cons p ps ih =>
    intro c t
    simp only [List.foldl_cons, List.map_cons, List.sum_cons]
    obtain ⟨i1, i2, i3⟩ := ih
      { c with
          count := c.count + p.tupleCount
          segments := c.segments ++ [mkPersistentSegment p] }
      (t.Merge p.stats)
    refine ⟨?_, ?_, ?_⟩
    · rw [i1]
      simp
      omega
    · rw [i2]
      simp
    · rw [i3]

/-- Claim C7: `DeserializeColumn`, given an ordered sequence of data-pointer
records, reconstructs exactly one persistent segment per record in record
order and, starting from `count = 0`, accumulates the column count as the
sum of the records' tuple counts and merges each record's statistics into the
target statistics in record order. -/
theorem deserialize_column_spec (col : ColumnData) (ps : List DataPointer)
    (target : BaseStatistics) :
    (col.DeserializeColumn ps target).1.count = (ps.map DataPointer.tupleCount).sum
    ∧ (col.DeserializeColumn ps target).1.segments
        = col.segments ++ ps.map mkPersistentSegment
    ∧ ((ps.map mkPersistentSegment).all
        fun s => s.segmentType == ColumnSegmentType.persistent) = true
    ∧ (col.DeserializeColumn ps target).2
        = ps.foldl (fun s p => s.Merge p.stats) target := by
  obtain ⟨a1, a2, a3⟩ := deserialize_fold_aux ps { col with count := 0 } target
  refine ⟨?_, ?_, ?_, ?_⟩
  · unfold ColumnData.DeserializeColumn
    rw [a1]
    simp
  · unfold ColumnData.DeserializeColumn
    rw [a2]
  · simp only [List.all_eq_true, List.mem_map]
    rintro s ⟨p, -, rfl⟩
    rfl
  · unfold ColumnData.DeserializeColumn
    rw [a3]

/-- Claim C8: the stats-owning `Append` overload, `CheckZonemap`,
`GetStatistics`, `MergeStatistics` and `MergeIntoStatistics` all fail with an
internal-consistency error on a column constructed with a parent (which
therefore lacks a statistics object), and none of them raises that error on a
root column constructed without a parent. -/
theorem stats_ops_parent_spec (startRow cap : Nat) (hcap : 0 < cap)
    (vdata : List Int) (n : Nat) (fc : BaseStatistics → FilterPropagateResult)
    (other : BaseStatistics) :
    (isInternalError ((mkColumnData startRow true).AppendRoot cap hcap vdata n) = true
      ∧ isInternalError ((mkColumnData startRow true).CheckZonemap fc) = true
      ∧ isInternalError (mkColumnData startRow true).GetStatistics = true
      ∧ isInternalError ((mkColumnData startRow true).MergeStatistics other) = true
      ∧ isInternalError ((mkColumnData startRow true).MergeIntoStatistics other) = true)
    ∧ (exceptOk ((mkColumnData startRow false).AppendRoot cap hcap vdata n) = true
      ∧ exceptOk ((mkColumnData startRow false).CheckZonemap fc) = true
      ∧ exceptOk (mkColumnData startRow false).GetStatistics = true
      ∧ exceptOk ((mkColumnData startRow false).MergeStatistics other) = true
      ∧ exceptOk ((mkColumnData startRow false).MergeIntoStatistics other) = true) := by
  refine ⟨⟨?_, ?_, ?_, ?_, ?_⟩, ⟨?_, ?_, ?_, ?_, ?_⟩⟩ <;>
    simp [mkColumnData, ColumnData.AppendRoot, ColumnData.CheckZonemap,
      ColumnData.GetStatistics, ColumnData.MergeStatistics,
      ColumnData.MergeIntoStatistics, isInternalError, exceptOk,
      ColumnData.AppendData]

theorem setStartGo_map_count :
    ∀ (segs : List Segment) (s : Nat),
      (setStartGo s segs).map Segment.count = segs.map Segment.count := by
  intro segs
  induction segs with
  | nil => intro s; rfl
  | cons x xs ih =>
    intro s
    simp [setStartGo, ih]

theorem setStartGo_get :
    ∀ (segs : List Segment) (s i : Nat) (seg : Segment),
      (setStartGo s segs).get? i = some seg →
      seg.start = s + segsCount (segs.take i) := by
  intro segs
  induction segs with
  | nil =>
    intro s i seg h
    simp [setStartGo] at h
  | cons x xs ih =>
    intro s i seg h
    match i, h with
    | 0, h =>
      simp only [setStartGo, List.get?] at h
      rw [← Option.some_inj.mp h]
      simp [segsCount]
    | i + 1, h =>
      simp only [setStartGo, List.get?_cons_succ] at h
      have hrec := ih (s + x.count) i seg h
      rw [List.take_succ_cons]
      simp only [segsCount]
      omega

/-- Claim C9: after `SetStart(newStart)` the column's start equals
`newStart`, every segment's count is unchanged, and the segments are
contiguous re-based at the new start: segment `i`'s start equals `newStart`
plus the sum of the counts of segments `0 .. i-1`. -/
theorem set_start_spec (col : ColumnData) (newStart : Nat) :
    (col.SetStart newStart).start = newStart
    ∧ (col.SetStart newStart).segments.map Segment.count
        = col.segments.map Segment.count
    ∧ ∀ i seg, (col.SetStart newStart).segments.get? i = some seg →
        seg.start = newStart + segsCount (col.segments.take i) := by
  refine ⟨rfl, setStartGo_map_count col.segments newStart, ?_⟩
  intro i seg h
  exact setStartGo_get col.segments newStart i seg h

/-- Claim C2: `RevertAppend(startRow)` is a no-op when `startRow` is exactly
at the tail boundary; when `startRow` falls inside the column it locates the
owning segment, erases every later segment, truncates the count to
`startRow - columnStart` and discards the owning segment's rows at or after
`startRow` in place (so the surviving values are exactly the prefix of the
column's values up to `startRow`); and it fails with an internal-consistency
error when `startRow` lies beyond the boundary (the debug assertion) or below
every segment (the segment-tree lookup). -/
theorem revert_append_spec (col : ColumnData) (startRow : Nat) (tail : Segment)
    (htail : col.segments.getLast? = some tail)
    (hch : chainB col.start col.segments = true)
    (hsum : segsCount col.segments = col.count) :
    (startRow = col.start + col.count → col.RevertAppend startRow = .ok col)
    ∧ (col.start ≤ startRow → startRow < col.start + col.count →
        ∃ i seg, getSegmentIndex col.segments startRow = .ok i
          ∧ col.segments.get? i = some seg
          ∧ col.RevertAppend startRow = .ok { col with
              count := startRow - col.start,
              segments := col.segments.take i ++ [seg.RevertAppendSeg startRow] }
          ∧ segsCount (col.segments.take i ++ [seg.RevertAppendSeg startRow])
              = startRow - col.start
          ∧ segsValues (col.segments.take i ++ [seg.RevertAppendSeg startRow])
              = (segsValues col.segments).take (startRow - col.start))
    ∧ (col.start + col.count < startRow →
        isInternalError (col.RevertAppend startRow) = true)
    ∧ (startRow < col.start → isInternalError (col.RevertAppend startRow) = true) := by
  have hbound : tail.start + tail.count = col.start + col.count := by
    rw [← hsum]
    exact chainB_getLast col.segments col.start tail hch htail
  refine ⟨?_, ?_, ?_, ?_⟩
  · intro heq
    simp only [ColumnData.RevertAppend, htail]
    rw [if_pos (by omega), if_pos (by omega)]
  · intro hge hlt
    obtain ⟨i, seg, hfind, hget, hb1, hb2⟩ :=
      getSegmentIndex_found col.segments col.start startRow hch hge (by omega)
    obtain ⟨hsstart, hchd, hdropeq, hlentake⟩ :=
      chainB_get? col.segments col.start i seg hch hget
    have hslen : seg.values.length = seg.count := by
      rw [hdropeq] at hchd
      exact (chainB_cons.mp hchd).2.1
    refine ⟨i, seg, hfind, hget, ?_, ?_, ?_⟩
    · simp only [ColumnData.RevertAppend, htail, hfind, hget]
      rw [if_neg (by omega)]
    · rw [segsCount_append]
      simp only [segsCount, Segment.RevertAppendSeg]
      omega
    · have hsplit : col.segments
          = col.segments.take i ++ (seg :: col.segments.drop (i + 1)) := by
        conv_lhs => rw [← List.take_append_drop i col.segments]
        rw [hdropeq]
      conv_rhs => rw [hsplit]
      rw [segsValues_append, segsValues_append, List.take_append_eq_append_take,
          List.take_of_length_le (l := segsValues (col.segments.take i))
            (i := startRow - col.start) (by rw [hlentake]; omega)]
      congr 1
      simp only [segsValues, Segment.RevertAppendSeg, List.append_nil]
      have harg : startRow - col.start - (segsValues (col.segments.take i)).length
          = startRow - seg.start := by
        rw [hlentake]
        omega
      rw [harg, List.take_append_of_le_length (by omega)]
  · intro hgt
    simp only [ColumnData.RevertAppend, htail]
    rw [if_pos (by omega), if_neg (by omega)]
    rfl
  · intro hlt2
    simp only [ColumnData.RevertAppend, htail,
      getSegmentIndex_below col.segments col.start startRow hch hlt2]
    rw [if_neg (by omega)]
    rfl

/-- Claim C10: the internal `ScanVector(state, result, remaining,
has_updates)` returns exactly the number of rows it decoded; under the chain
invariant this equals the requested count whenever the request fits within
the remaining segments, and is strictly smaller — stopping without error
after exhausting the last segment — exactly when the segment chain ends
before the request is satisfied. -/
theorem scan_vector_count_spec (col : ColumnData) (st : ColumnScanState)
    (remaining : Nat) (hasUpdates : Bool) (cur : Segment)
    (hch : chainB col.start col.segments = true)
    (hget : col.segments.get? st.current = some cur)
    (h1 : cur.start ≤ st.rowIndex) (h2 : st.rowIndex ≤ cur.start + cur.count) :
    (col.ScanVector st remaining hasUpdates).2.1
        = (col.ScanVector st remaining hasUpdates).2.2.length
    ∧ (col.ScanVector st remaining hasUpdates).2.1
        = min remaining (col.start + segsCount col.segments - st.rowIndex)
    ∧ (st.rowIndex + remaining ≤ col.start + segsCount col.segments →
        (col.ScanVector st remaining hasUpdates).2.1 = remaining)
    ∧ (col.start + segsCount col.segments < st.rowIndex + remaining →
        (col.ScanVector st remaining hasUpdates).2.1 < remaining) := by
  obtain ⟨hc, hv⟩ := ScanVector_spec col st remaining hasUpdates cur hch hget h1 h2
  obtain ⟨hstart, -, hdropeq, hlentake⟩ :=
    chainB_get? col.segments col.start st.current cur hch hget
  have hlenfull : (segsValues col.segments).length = segsCount col.segments :=
    segsValues_length_of_chain col.segments col.start hch
  have hcurend : cur.start + cur.count ≤ col.start + segsCount col.segments := by
    have hts : segsCount col.segments
        = segsCount (col.segments.take st.current)
          + segsCount (col.segments.drop st.current) := by
      conv_lhs => rw [← List.take_append_drop st.current col.segments]
      rw [segsCount_append]
    have hdc : segsCount (col.segments.drop st.current)
        = cur.count + segsCount (col.segments.drop (st.current + 1)) := by
      rw [hdropeq]
      simp [segsCount]
    omega
  refine ⟨?_, hc, fun hfit => by rw [hc]; omega, fun hover => by rw [hc]; omega⟩
  rw [hc, hv, List.length_take, List.length_drop, hlenfull]
  omega

/-- Claim C4: when the cursor is positioned at vector block `vidx` of an
existing row range, `Scan` decodes exactly
`min 1024 (count - vidx * 1024)` rows starting at row `vidx * 1024` —
crossing segment boundaries transparently — and then overlays the visible
update-overlay entries of that vector block onto the result. -/
theorem scan_block_spec (col : ColumnData) (txn vidx : Nat) (st : ColumnScanState)
    (cur : Segment)
    (hch : chainB col.start col.segments = true)
    (hsum : segsCount col.segments = col.count)
    (hlt : vidx * STANDARD_VECTOR_SIZE < col.count)
    (hrow : st.rowIndex = col.start + vidx * STANDARD_VECTOR_SIZE)
    (hget : col.segments.get? st.current = some cur)
    (h1 : cur.start ≤ st.rowIndex) (h2 : st.rowIndex ≤ cur.start + cur.count) :
    ∃ st', col.Scan txn vidx st
      = .ok (st', min STANDARD_VECTOR_SIZE (col.count - vidx * STANDARD_VECTOR_SIZE),
          overlayVisible col.updates txn vidx
            (((segsValues col.segments).drop (vidx * STANDARD_VECTOR_SIZE)).take
              (min STANDARD_VECTOR_SIZE (col.count - vidx * STANDARD_VECTOR_SIZE)))) := by
  obtain ⟨hc, hv⟩ := ScanVector_spec col st
    (min STANDARD_VECTOR_SIZE (col.count - vidx * STANDARD_VECTOR_SIZE))
    col.HasUpdates cur hch hget h1 h2
  have hmin : min (min STANDARD_VECTOR_SIZE (col.count - vidx * STANDARD_VECTOR_SIZE))
      (col.start + segsCount col.segments - st.rowIndex)
      = min STANDARD_VECTOR_SIZE (col.count - vidx * STANDARD_VECTOR_SIZE) := by
    rw [hsum, hrow]
    omega
  have hdrop : st.rowIndex - col.start = vidx * STANDARD_VECTOR_SIZE := by omega
  rw [hmin] at hc
  rw [hmin, hdrop] at hv
  refine ⟨(col.ScanVector st
    (min STANDARD_VECTOR_SIZE (col.count - vidx * STANDARD_VECTOR_SIZE))
    col.HasUpdates).1, ?_⟩
  unfold ColumnData.Scan
  rw [scanVectorTC_scan, hc, hv]

/-- Claim C6: for every valid `rowId`, `Fetch` positions the cursor at the
start of the aligned 1024-row vector block containing `rowId`
(`start + (rowId - start) / 1024 * 1024`), locates that block's segment, and
decodes the whole vector block from that aligned start (clipped only by the
column's end, never starting mid-block) without applying any update-overlay
entries: the result is a pure slice of the segment values, whatever
`col.updates` holds. -/
theorem fetch_block_spec (col : ColumnData) (st : ColumnScanState) (rowId : Nat)
    (hch : chainB col.start col.segments = true)
    (hsum : segsCount col.segments = col.count)
    (h1 : col.start ≤ rowId) (h2 : rowId < col.start + col.count) :
    ∃ st', col.Fetch st rowId
      = .ok (st',
          min STANDARD_VECTOR_SIZE
            (col.start + col.count - alignedBlockStart col.start rowId),
          ((segsValues col.segments).drop
              (alignedBlockStart col.start rowId - col.start)).take
            (min STANDARD_VECTOR_SIZE
              (col.start + col.count - alignedBlockStart col.start rowId))) := by
  have ha1 : col.start ≤ alignedBlockStart col.start rowId := by
    unfold alignedBlockStart
    omega
  have ha2 : alignedBlockStart col.start rowId ≤ rowId := by
    unfold alignedBlockStart
    have hdm := Nat.div_mul_le_self (rowId - col.start) STANDARD_VECTOR_SIZE
    omega
  obtain ⟨k, seg, hfind, hget, hb1, hb2⟩ := getSegmentIndex_found col.segments col.start
    (alignedBlockStart col.start rowId) hch ha1 (by omega)
  obtain ⟨hc, hv⟩ := ScanVector_spec col
    { current := k, rowIndex := alignedBlockStart col.start rowId }
    STANDARD_VECTOR_SIZE false seg hch hget hb1 (by dsimp only; omega)
  dsimp only at hc hv
  rw [hsum] at hc hv
  refine ⟨(col.ScanVector
      { current := k, rowIndex := alignedBlockStart col.start rowId }
      STANDARD_VECTOR_SIZE false).1, ?_⟩
  simp only [ColumnData.Fetch, hfind]
  rw [← hv, ← hc]

/-- Witness for claim C1 at a concrete column: appending 3 rows into a tail
with room for one spills into a fresh transient segment; the count and the
concatenated values grow accordingly. -/
theorem c1_witness :
    (wCol.AppendData 2 (by decide) BaseStatistics.CreateEmpty [7, 8, 9] 3).1.count
        = wCol.count + 3
    ∧ segsCount (wCol.AppendData 2 (by decide)
        BaseStatistics.CreateEmpty [7, 8, 9] 3).1.segments = wCol.count + 3
    ∧ segsValues (wCol.AppendData 2 (by decide)
          BaseStatistics.CreateEmpty [7, 8, 9] 3).1.segments
        = segsValues wCol.segments ++ ([7, 8, 9] : List Int).take 3 := by
  have h := AppendData_spec wCol 2 (by decide) BaseStatistics.CreateEmpty [7, 8, 9] 3 wSeg2
    (by decide) (by decide) (by decide) (by decide)
  exact ⟨h.1, h.2.1, h.2.2.1⟩

/-- Witness for claim C2 at a concrete column: reverting exactly at the tail
boundary is a no-op. -/
theorem c2_witness :
    wCol.start + wCol.count = 4 ∧ wCol.RevertAppend 4 = .ok wCol := by
  refine ⟨by decide, ?_⟩
  exact (revert_append_spec wCol 4 wSeg2 (by decide) (by decide) (by decide)).1 (by decide)

/-- Witness for claim C3 at a concrete non-empty column: the overlay is
cleared and the rebuilt list swapped in. -/
theorem c3_witness :
    wCol.segments ≠ []
    ∧ (wCol.Checkpoint fun segs => (segs, BaseStatistics.CreateEmpty)).1.updates = none
    ∧ (wCol.Checkpoint fun segs => (segs, BaseStatistics.CreateEmpty)).1.segments
        = ((fun segs => (segs, BaseStatistics.CreateEmpty)) wCol.segments).1 := by
  have h := (checkpoint_spec wCol fun segs => (segs, BaseStatistics.CreateEmpty)).1 (by decide)
  exact ⟨by decide, h.2.1, h.1⟩

/-- Witness for claim C4 at a concrete column and cursor: the block scan
succeeds. -/
theorem c4_witness : exceptOk (wCol.Scan 3 0 ⟨0, 0⟩) = true := by
  obtain ⟨st', hok⟩ := scan_block_spec wCol 3 0 ⟨0, 0⟩ wSeg1 (by decide) (by decide)
    (by decide) (by decide) (by decide) (by decide) (by decide)
  rw [hok]
  rfl

/-- Witness for claim C5 at a concrete overlay with an uncommitted entry:
`FetchUpdates` with `allow_updates = false` raises the conflict error while
`FetchUpdateRow` returns successfully. -/
theorem c5_witness :
    wOverlayU.HasUncommittedUpdates 0 = true
    ∧ isTransactionError (wColU.FetchUpdates 9 0 [5] 1 false true) = true
    ∧ wColU.FetchUpdateRow 9 0 [5] 0 = .ok (wOverlayU.FetchRowU 9 0 [5] 0) := by
  have h := fetch_updates_conflict_spec wColU wOverlayU 9 0 0 0 [5] 1 ⟨0, 0⟩ rfl
  exact ⟨by decide, (h.1 (by decide)).1, h.2.2⟩

/-- Witness for claim C6 at a concrete column and row id: the aligned block
fetch succeeds. -/
theorem c6_witness : exceptOk (wCol.Fetch ⟨0, 0⟩ 3) = true := by
  obtain ⟨st', hok⟩ := fetch_block_spec wCol ⟨0, 0⟩ 3 (by decide) (by decide)
    (by decide) (by decide)
  rw [hok]
  rfl

/-- Witness for claim C8 at concrete child and root columns. -/
theorem c8_witness :
    isInternalError (mkColumnData 0 true).GetStatistics = true
    ∧ exceptOk (mkColumnData 0 false).GetStatistics = true
    ∧ isInternalError ((mkColumnData 0 true).AppendRoot 1 (by decide) [] 0) = true
    ∧ exceptOk ((mkColumnData 0 false).AppendRoot 1 (by decide) [] 0) = true := by
  have h := stats_ops_parent_spec 0 1 (by decide) [] 0
    (fun _ => FilterPropagateResult.alwaysTrue) BaseStatistics.CreateEmpty
  exact ⟨h.1.2.2.1, h.2.2.2.1, h.1.1, h.2.1⟩

/-- Witness for claim C9 at a concrete column: rebasing to 100 re-addresses
the second segment at 102 = 100 plus the first segment's count. -/
theorem c9_witness :
    (wCol.SetStart 100).start = 100
    ∧ ({ wSeg2 with start := 102 } : Segment).start
        = 100 + segsCount (wCol.segments.take 1) := by
  have h := set_start_spec wCol 100
  exact ⟨h.1, h.2.2 1 { wSeg2 with start := 102 } (by decide)⟩

/-- Witness for claim C10 at a concrete column and mid-chain cursor. -/
theorem c10_witness :
    (wCol.ScanVector ⟨1, 2⟩ 5 false).2.1 = (wCol.ScanVector ⟨1, 2⟩ 5 false).2.2.length
    ∧ (wCol.ScanVector ⟨1, 2⟩ 5 false).2.1
        = min 5 (wCol.start + segsCount wCol.segments
            - (⟨1, 2⟩ : ColumnScanState).rowIndex) := by
  have h := scan_vector_count_spec wCol ⟨1, 2⟩ 5 false wSeg2 (by decide) (by decide)
    (by decide) (by decide)
  exact ⟨h.1, h.2.1⟩

end ColumnStore
